import Mathlib

/-!
# Usage-sharing analysis of `src/can/sharing.rs`

A shallow embedding of the static usage-sharing analysis: the
`ReferenceCount` lattice, the `register` accumulator and the recursive
`sharing_analysis` traversal, together with theorems settling the
specified properties of the analysis.

The usage map `HashMap<Symbol, ReferenceCount>` is embedded as the
function `Symbol → Option ReferenceCount`; `none` is the absence of an
entry.  The per-key body of the Rust merge loop in the `Case` arm acts
independently at each key, so the loop is embedded pointwise
(`merge1` / `mergeInto`); a list-indexed rendering of the same loop
(`mergeList`) is used to prove independence from iteration order.
-/

namespace Roc

/-- Symbols are opaque identity-unique handles; embedded as naturals. -/
abbrev Symbol := Nat

/-- The two-valued classification lattice of `sharing.rs`. -/
inductive ReferenceCount where
  | Unique
  | Shared
deriving DecidableEq, Repr

/-- `ReferenceCount::add`: ignores both operands and yields `Shared`. -/
def ReferenceCount.add (_a _b : ReferenceCount) : ReferenceCount :=
  ReferenceCount.Shared

/-- `ReferenceCount::or`: `Unique` only when both operands are `Unique`. -/
def ReferenceCount.or : ReferenceCount → ReferenceCount → ReferenceCount
  | ReferenceCount.Unique, ReferenceCount.Unique => ReferenceCount.Unique
  | _, _ => ReferenceCount.Shared

/-- The usage map: `HashMap<Symbol, ReferenceCount>` as a function into
`Option`; `none` models the absence of an entry. -/
abbrev UsageMap := Symbol → Option ReferenceCount

/-- The empty usage map the analysis of a definition starts from. -/
def emptyUsage : UsageMap := fun _ => none

/-- `register`: no entry inserts `Unique`; an existing entry is replaced
by `ReferenceCount::add current Unique`. -/
def register (symbol : Symbol) (usage : UsageMap) : UsageMap :=
  let value : ReferenceCount :=
    match usage symbol with
    | none => ReferenceCount.Unique
    | some current => ReferenceCount.add current ReferenceCount.Unique
  fun t => if t = symbol then some value else usage t

/-- The expression vocabulary matched by `sharing_analysis`.  Payloads
the analysis ignores (regions, patterns, field names, literal values,
type variables) are erased; `Located` wrappers are dropped since only
`.value` is ever read. -/
inductive Expr where
  | Var (symbol : Symbol)
  | FunctionPointer (symbol : Symbol)
  | List (elements : List Expr)
  | Case (scrutinee : Expr) (branches : List Expr)
  | Defs (assignments : List Expr) (body : Expr)
  | CallByName (symbol : Symbol) (arguments : List Expr)
  | CallPointer (function : Expr) (arguments : List Expr)
  | Record (fields : List Expr)
  | Field (record : Expr)
  | Int
  | Float
  | Str
  | BlockStr
  | EmptyRecord
  | RuntimeError

/-- The per-key body of the merge loop of the `Case` arm: a key absent
from the branch-local map leaves the outer entry; a present key is
inserted when the outer map has no entry and otherwise combined with
`ReferenceCount::or`. -/
def merge1 : Option ReferenceCount → Option ReferenceCount → Option ReferenceCount
  | outer, none => outer
  | none, some v => some v
  | some current, some v => some (ReferenceCount.or current v)

/-- The merge loop of the `Case` arm, pointwise over all keys: folds the
branch-local map `local` into the outer map `usage`. -/
def mergeInto (usage localMap : UsageMap) : UsageMap :=
  fun s => merge1 (usage s) (localMap s)

mutual

/-- `sharing_analysis`: the recursive traversal of `sharing.rs`,
threading the usage map through each arm. -/
def sharing_analysis : Expr → UsageMap → UsageMap
  | Expr.Var symbol, usage => register symbol usage
  | Expr.FunctionPointer symbol, usage => register symbol usage
  | Expr.List elements, usage => sharing_list elements usage
  | Expr.Case scrutinee branches, usage =>
      sharing_branches branches (sharing_analysis scrutinee usage)
  | Expr.Defs assignments body, usage =>
      sharing_analysis body (sharing_list assignments usage)
  | Expr.CallByName symbol arguments, usage =>
      sharing_list arguments (register symbol usage)
  | Expr.CallPointer function arguments, usage =>
      sharing_list arguments (sharing_analysis function usage)
  | Expr.Record fields, usage => sharing_list fields usage
  | Expr.Field record, usage => sharing_analysis record usage
  | Expr.Int, usage => usage
  | Expr.Float, usage => usage
  | Expr.Str, usage => usage
  | Expr.BlockStr, usage => usage
  | Expr.EmptyRecord, usage => usage
  | Expr.RuntimeError, usage => usage

/-- Sequential accumulation over a list of sub-expressions (the `for`
loops of the `List`, `Defs`, `CallByName`, `CallPointer` and `Record`
arms). -/
def sharing_list : List Expr → UsageMap → UsageMap
  | [], usage => usage
  | e :: es, usage => sharing_list es (sharing_analysis e usage)

/-- The branch loop of the `Case` arm: each branch clones the current
outer map, is analyzed against the clone, and the clone is merged back
into the outer map before the next branch is processed. -/
def sharing_branches : List Expr → UsageMap → UsageMap
  | [], usage => usage
  | b :: bs, usage =>
      sharing_branches bs (mergeInto usage (sharing_analysis b usage))

end

mutual

/-- Number of syntactic references to symbol `x` in an expression: one
per `Var`, `FunctionPointer` and `CallByName` callee occurrence —
exactly the places where `sharing_analysis` calls `register`. -/
def countUses : Expr → Symbol → Nat
  | Expr.Var symbol, x => if symbol = x then 1 else 0
  | Expr.FunctionPointer symbol, x => if symbol = x then 1 else 0
  | Expr.List elements, x => countList elements x
  | Expr.Case scrutinee branches, x => countUses scrutinee x + countList branches x
  | Expr.Defs assignments body, x => countList assignments x + countUses body x
  | Expr.CallByName symbol arguments, x =>
      (if symbol = x then 1 else 0) + countList arguments x
  | Expr.CallPointer function arguments, x =>
      countUses function x + countList arguments x
  | Expr.Record fields, x => countList fields x
  | Expr.Field record, x => countUses record x
  | Expr.Int, _ => 0
  | Expr.Float, _ => 0
  | Expr.Str, _ => 0
  | Expr.BlockStr, _ => 0
  | Expr.EmptyRecord, _ => 0
  | Expr.RuntimeError, _ => 0

/-- Total number of syntactic references to `x` in a list of
sub-expressions. -/
def countList : List Expr → Symbol → Nat
  | [], _ => 0
  | e :: es, x => countUses e x + countList es x

end

/-- Effect of one `register` call on the entry of the registered symbol:
absence becomes `Unique`; any present entry becomes
`ReferenceCount::add current Unique = Shared`. -/
def registerAt : Option ReferenceCount → Option ReferenceCount
  | none => some ReferenceCount.Unique
  | some current => some (ReferenceCount.add current ReferenceCount.Unique)

/-- Effect of `n` successive `register` calls on one entry. -/
def applyN : Nat → Option ReferenceCount → Option ReferenceCount
  | 0, o => o
  | n + 1, o => registerAt (applyN n o)

mutual

/-- Whether symbol `f` occurs somewhere in `e` as the callee of a
statically-resolved call (`CallByName`). -/
def hasCallee : Expr → Symbol → Bool
  | Expr.Var _, _ => false
  | Expr.FunctionPointer _, _ => false
  | Expr.List elements, f => hasCalleeList elements f
  | Expr.Case scrutinee branches, f =>
      hasCallee scrutinee f || hasCalleeList branches f
  | Expr.Defs assignments body, f =>
      hasCalleeList assignments f || hasCallee body f
  | Expr.CallByName symbol arguments, f =>
      symbol = f || hasCalleeList arguments f
  | Expr.CallPointer function arguments, f =>
      hasCallee function f || hasCalleeList arguments f
  | Expr.Record fields, f => hasCalleeList fields f
  | Expr.Field record, f => hasCallee record f
  | Expr.Int, _ => false
  | Expr.Float, _ => false
  | Expr.Str, _ => false
  | Expr.BlockStr, _ => false
  | Expr.EmptyRecord, _ => false
  | Expr.RuntimeError, _ => false

/-- `hasCallee` over a list of sub-expressions. -/
def hasCalleeList : List Expr → Symbol → Bool
  | [], _ => false
  | e :: es, f => hasCallee e f || hasCalleeList es f

end

/-- The keys of an association-list rendering of a usage map. -/
def keysOf (l : List (Symbol × ReferenceCount)) : List Symbol :=
  l.map Prod.fst

/-- Lookup in an association-list rendering of a usage map. -/
def lookupList : List (Symbol × ReferenceCount) → Symbol → Option ReferenceCount
  | [], _ => none
  | (k, v) :: t, s => if s = k then some v else lookupList t s

/-- One iteration of the merge loop of the `Case` arm, at the entry
`(key, value)` of the branch-local map. -/
def mergeStep (usage : UsageMap) (kv : Symbol × ReferenceCount) : UsageMap :=
  fun s => if s = kv.1 then merge1 (usage kv.1) (some kv.2) else usage s

/-- The merge loop of the `Case` arm run over an explicit iteration
order of the branch-local map's entries, as the Rust `for (key, value)
in local` loop does over an unspecified `HashMap` order. -/
def mergeList (l : List (Symbol × ReferenceCount)) (usage : UsageMap) : UsageMap :=
  l.foldl mergeStep usage

mutual

/-- Modelled from the spec: the traversal of §4.1 with the Case rule as
the spec words it — every branch starts from an isolated copy of the
post-scrutinee map, and the branch-local maps are merged into the outer
map only after all branches are analyzed.  All other arms are identical
to `sharing_analysis`.  Used solely to compare the specified algorithm
with the implemented one. -/
def sharing_spec : Expr → UsageMap → UsageMap
  | Expr.Var symbol, usage => register symbol usage
  | Expr.FunctionPointer symbol, usage => register symbol usage
  | Expr.List elements, usage => sharing_spec_list elements usage
  | Expr.Case scrutinee branches, usage =>
      sharing_spec_branches branches (sharing_spec scrutinee usage)
        (sharing_spec scrutinee usage)
  | Expr.Defs assignments body, usage =>
      sharing_spec body (sharing_spec_list assignments usage)
  | Expr.CallByName symbol arguments, usage =>
      sharing_spec_list arguments (register symbol usage)
  | Expr.CallPointer function arguments, usage =>
      sharing_spec_list arguments (sharing_spec function usage)
  | Expr.Record fields, usage => sharing_spec_list fields usage
  | Expr.Field record, usage => sharing_spec record usage
  | Expr.Int, usage => usage
  | Expr.Float, usage => usage
  | Expr.Str, usage => usage
  | Expr.BlockStr, usage => usage
  | Expr.EmptyRecord, usage => usage
  | Expr.RuntimeError, usage => usage

/-- Modelled from the spec: sequential accumulation, as in
`sharing_list`. -/
def sharing_spec_list : List Expr → UsageMap → UsageMap
  | [], usage => usage
  | e :: es, usage => sharing_spec_list es (sharing_spec e usage)

/-- Modelled from the spec: every branch is analyzed against the fixed
post-scrutinee map `base`, and the resulting branch-local maps are
folded into the outer map with the `Or` merge rule. -/
def sharing_spec_branches : List Expr → UsageMap → UsageMap → UsageMap
  | [], _, outer => outer
  | b :: bs, base, outer =>
      sharing_spec_branches bs base (mergeInto outer (sharing_spec b base))

end

theorem register_apply (s : Symbol) (u : UsageMap) (x : Symbol) :
    register s u x = if x = s then registerAt (u s) else u x := by
  unfold register registerAt
  cases u s <;> simp

theorem applyN_isSome (n : Nat) (c : ReferenceCount) :
    ∃ d, applyN n (some c) = some d := by
  induction n with
  | zero => exact ⟨c, rfl⟩
  | succ n ih =>
      obtain ⟨d, hd⟩ := ih
      exact ⟨ReferenceCount.add d ReferenceCount.Unique, by simp [applyN, hd, registerAt]⟩

theorem applyN_succ_some (n : Nat) (c : ReferenceCount) :
    applyN (n + 1) (some c) = some ReferenceCount.Shared := by
  obtain ⟨d, hd⟩ := applyN_isSome n c
  simp [applyN, hd, registerAt, ReferenceCount.add]

theorem applyN_add_apply (m n : Nat) (o : Option ReferenceCount) :
    applyN m (applyN n o) = applyN (m + n) o := by
  induction m with
  | zero => simp [applyN]
  | succ m ih => simp [applyN, ih, Nat.succ_add]

theorem or_idem (c : ReferenceCount) : ReferenceCount.or c c = c := by
  cases c <;> rfl

theorem or_shared_right (c : ReferenceCount) :
    ReferenceCount.or c ReferenceCount.Shared = ReferenceCount.Shared := by
  cases c <;> rfl

theorem or_shared_left (c : ReferenceCount) :
    ReferenceCount.or ReferenceCount.Shared c = ReferenceCount.Shared := by
  cases c <;> rfl

/-- Merging a branch-local map that evolved from the outer map by
`register` calls collapses to the branch-local entry: the `or`-merge of
the `Case` arm never records anything the branch analysis itself did not
already record. -/
theorem merge1_applyN (o : Option ReferenceCount) (n : Nat) :
    merge1 o (applyN n o) = applyN n o := by
  cases n with
  | zero =>
      cases o with
      | none => rfl
      | some c => simp [applyN, merge1, or_idem]
  | succ n =>
      cases o with
      | none =>
          cases h : applyN (n + 1) (none : Option ReferenceCount) with
          | none => simp [merge1]
          | some d => simp [merge1]
      | some c =>
          rw [applyN_succ_some]
          simp [merge1, or_shared_right]

mutual

/-- Master characterization: the entry of `x` after analyzing `e` equals
`n` iterations of the one-entry `register` effect on the starting entry,
where `n` counts the syntactic references to `x` in `e`. -/
theorem sharing_eq_applyN (e : Expr) (u : UsageMap) (x : Symbol) :
    sharing_analysis e u x = applyN (countUses e x) (u x) := by
  cases e with
  | Var symbol =>
      rw [sharing_analysis, countUses, register_apply]
      by_cases h : symbol = x
      · subst h; simp [applyN]
      · have hx : ¬ x = symbol := fun hxs => h hxs.symm
        simp [h, hx, applyN]
  | FunctionPointer symbol =>
      rw [sharing_analysis, countUses, register_apply]
      by_cases h : symbol = x
      · subst h; simp [applyN]
      · have hx : ¬ x = symbol := fun hxs => h hxs.symm
        simp [h, hx, applyN]
  | List elements =>
      rw [sharing_analysis, countUses]
      exact sharing_list_eq_applyN elements u x
  | Case scrutinee branches =>
      rw [sharing_analysis, countUses]
      rw [sharing_branches_eq_applyN branches (sharing_analysis scrutinee u) x]
      rw [sharing_eq_applyN scrutinee u x]
      rw [applyN_add_apply, Nat.add_comm]
  | Defs assignments body =>
      rw [sharing_analysis, countUses]
      rw [sharing_eq_applyN body (sharing_list assignments u) x]
      rw [sharing_list_eq_applyN assignments u x]
      rw [applyN_add_apply, Nat.add_comm]
  | CallByName symbol arguments =>
      rw [sharing_analysis, countUses]
      rw [sharing_list_eq_applyN arguments (register symbol u) x]
      rw [register_apply]
      by_cases h : symbol = x
      · subst h
        have h1 : registerAt (u symbol) = applyN 1 (u symbol) := rfl
        rw [if_pos rfl, if_pos rfl, h1, applyN_add_apply, Nat.add_comm]
      · have hx : ¬ x = symbol := fun hxs => h hxs.symm
        simp [h, hx, applyN]
  | CallPointer function arguments =>
      rw [sharing_analysis, countUses]
      rw [sharing_list_eq_applyN arguments (sharing_analysis function u) x]
      rw [sharing_eq_applyN function u x]
      rw [applyN_add_apply, Nat.add_comm]
  | Record fields =>
      rw [sharing_analysis, countUses]
      exact sharing_list_eq_applyN fields u x
  | Field record =>
      rw [sharing_analysis, countUses]
      exact sharing_eq_applyN record u x
  | Int => rw [sharing_analysis, countUses]; rfl
  | Float => rw [sharing_analysis, countUses]; rfl
  | Str => rw [sharing_analysis, countUses]; rfl
  | BlockStr => rw [sharing_analysis, countUses]; rfl
  | EmptyRecord => rw [sharing_analysis, countUses]; rfl
  | RuntimeError => rw [sharing_analysis, countUses]; rfl

/-- Master characterization for sequential accumulation over a list. -/
theorem sharing_list_eq_applyN (es : List Expr) (u : UsageMap) (x : Symbol) :
    sharing_list es u x = applyN (countList es x) (u x) := by
  cases es with
  | nil => rw [sharing_list, countList]; rfl
  | cons e es =>
      rw [sharing_list, countList]
      rw [sharing_list_eq_applyN es (sharing_analysis e u) x]
      rw [sharing_eq_applyN e u x]
      rw [applyN_add_apply, Nat.add_comm]

/-- Master characterization for the branch loop of the `Case` arm: the
clone-and-merge processing of each branch has exactly the effect of the
branch's own `register` calls on the running map. -/
theorem sharing_branches_eq_applyN (bs : List Expr) (u : UsageMap) (x : Symbol) :
    sharing_branches bs u x = applyN (countList bs x) (u x) := by
  cases bs with
  | nil => rw [sharing_branches, countList]; rfl
  | cons b bs =>
      rw [sharing_branches, countList]
      rw [sharing_branches_eq_applyN bs (mergeInto u (sharing_analysis b u)) x]
      have hmerge : mergeInto u (sharing_analysis b u) x
          = applyN (countUses b x) (u x) := by
        rw [mergeInto, sharing_eq_applyN b u x]
        exact merge1_applyN (u x) (countUses b x)
      rw [hmerge, applyN_add_apply, Nat.add_comm]

end

theorem registerAt_isSome (o : Option ReferenceCount) :
    ∃ d, registerAt o = some d := by
  cases o <;> exact ⟨_, rfl⟩

theorem applyN_shared (n : Nat) :
    applyN n (some ReferenceCount.Shared) = some ReferenceCount.Shared := by
  cases n with
  | zero => rfl
  | succ n => exact applyN_succ_some n ReferenceCount.Shared

theorem applyN_two_le (n : Nat) (o : Option ReferenceCount) (h : 2 ≤ n) :
    applyN n o = some ReferenceCount.Shared := by
  obtain ⟨m, rfl⟩ : ∃ m, n = m + 2 := ⟨n - 2, by omega⟩
  obtain ⟨d, hd⟩ := registerAt_isSome (applyN m o)
  show registerAt (applyN (m + 1) o) = some ReferenceCount.Shared
  rw [show applyN (m + 1) o = registerAt (applyN m o) from rfl, hd]
  rfl

theorem countUses_le_countList (b : Expr) (bs : List Expr) (x : Symbol)
    (hb : b ∈ bs) : countUses b x ≤ countList bs x := by
  induction bs with
  | nil => cases hb
  | cons e es ih =>
      rw [countList]
      rcases List.mem_cons.mp hb with h | h
      · subst h; omega
      · have := ih h; omega

theorem lookupList_eq_none (l : List (Symbol × ReferenceCount)) (s : Symbol)
    (h : s ∉ keysOf l) : lookupList l s = none := by
  induction l with
  | nil => rfl
  | cons kv t ih =>
      obtain ⟨k, v⟩ := kv
      simp only [keysOf, List.map_cons, List.mem_cons] at h
      push_neg at h
      rw [lookupList, if_neg h.1]
      exact ih (by simpa [keysOf] using h.2)

theorem lookupList_mem {l : List (Symbol × ReferenceCount)} {s : Symbol}
    {v : ReferenceCount} (h : lookupList l s = some v) : (s, v) ∈ l := by
  induction l with
  | nil => simp [lookupList] at h
  | cons kv t ih =>
      obtain ⟨k, w⟩ := kv
      rw [lookupList] at h
      by_cases hs : s = k
      · rw [if_pos hs] at h
        obtain rfl : w = v := Option.some.inj h
        subst hs
        exact List.mem_cons_self _ _
      · rw [if_neg hs] at h
        exact List.mem_cons_of_mem _ (ih h)

theorem lookupList_of_mem {l : List (Symbol × ReferenceCount)}
    (hnd : (keysOf l).Nodup) {s : Symbol} {v : ReferenceCount}
    (h : (s, v) ∈ l) : lookupList l s = some v := by
  induction l with
  | nil => cases h
  | cons kv t ih =>
      obtain ⟨k, w⟩ := kv
      simp only [keysOf, List.map_cons, List.nodup_cons] at hnd
      obtain ⟨hk, hnd'⟩ := hnd
      rcases List.mem_cons.mp h with h1 | h1
      · injection h1 with hsk hvw
        subst hsk
        subst hvw
        rw [lookupList, if_pos rfl]
      · have hs : ¬ s = k := by
          intro hsk
          subst hsk
          exact hk (List.mem_map_of_mem Prod.fst h1)
        rw [lookupList, if_neg hs]
        exact ih (by simpa [keysOf] using hnd') h1

theorem lookupList_perm {l₁ l₂ : List (Symbol × ReferenceCount)}
    (hp : List.Perm l₁ l₂) (hnd : (keysOf l₁).Nodup) (s : Symbol) :
    lookupList l₁ s = lookupList l₂ s := by
  have hnd₂ : (keysOf l₂).Nodup := (hp.map Prod.fst).nodup_iff.mp hnd
  cases h1 : lookupList l₁ s with
  | none =>
      cases h2 : lookupList l₂ s with
      | none => rfl
      | some v =>
          have hm : (s, v) ∈ l₁ := hp.symm.subset (lookupList_mem h2)
          rw [lookupList_of_mem hnd hm] at h1
          cases h1
  | some v =>
      have hm : (s, v) ∈ l₂ := hp.subset (lookupList_mem h1)
      rw [lookupList_of_mem hnd₂ hm]

theorem mergeList_apply (l : List (Symbol × ReferenceCount))
    (hnd : (keysOf l).Nodup) (u : UsageMap) (s : Symbol) :
    mergeList l u s = merge1 (u s) (lookupList l s) := by
  induction l generalizing u with
  | nil => cases hu : u s <;> simp [mergeList, List.foldl, lookupList, merge1, hu]
  | cons kv t ih =>
      obtain ⟨k, v⟩ := kv
      simp only [keysOf, List.map_cons, List.nodup_cons] at hnd
      obtain ⟨hk, hnd'⟩ := hnd
      show mergeList t (mergeStep u (k, v)) s = merge1 (u s) (lookupList ((k, v) :: t) s)
      rw [ih (by simpa [keysOf] using hnd') (mergeStep u (k, v))]
      by_cases hs : s = k
      · subst hs
        rw [lookupList, if_pos rfl, lookupList_eq_none t s (by simpa [keysOf] using hk)]
        show merge1 (mergeStep u (s, v) s) none = merge1 (u s) (some v)
        simp only [mergeStep, if_pos rfl]
        cases u s <;> rfl
      · rw [lookupList, if_neg hs]
        simp only [mergeStep, if_neg hs]

/-- C1 — failing-input evaluation: a symbol read exactly once in each of
two mutually exclusive branches of the same case (and nowhere else,
starting from the empty map) is classified `Shared` by the code, not
`Unique` as the claim states: the first branch's usages are merged into
the outer map before the second branch clones it, so the second
branch's `register` finds an existing entry and applies `add`. -/
theorem case_two_branch_reads_shared :
    countUses (Expr.Var 0) 0 = 1
    ∧ sharing_analysis (Expr.Case Expr.EmptyRecord [Expr.Var 0, Expr.Var 0]) emptyUsage 0
        = some ReferenceCount.Shared :=
  ⟨rfl, rfl⟩

/-- C2 — counterexample: on a case with two branches each reading `x`
once, the implemented classifier (`sharing_analysis`) produces
`x ↦ Shared` while the algorithm worded by the spec (`sharing_spec`:
isolated copies of the post-scrutinee map, merge only after all
branches) produces `x ↦ Unique`; the code therefore does not follow the
specified branch-isolation algorithm. -/
theorem case_spec_algorithm_diverges :
    sharing_analysis (Expr.Case Expr.EmptyRecord [Expr.Var 0, Expr.Var 0]) emptyUsage 0
        = some ReferenceCount.Shared
    ∧ sharing_spec (Expr.Case Expr.EmptyRecord [Expr.Var 0, Expr.Var 0]) emptyUsage 0
        = some ReferenceCount.Unique :=
  ⟨rfl, rfl⟩

/-- C2 — amended: after the scrutinee is analyzed, each branch is
analyzed against an isolated copy of the outer map as it stands when
that branch is reached, and the branch-local map is merged back with
`Or` immediately, before the next branch's copy is taken; consequently
the whole `Case` analysis is equivalent to analyzing the scrutinee and
all branch bodies sequentially against a single map. -/
theorem case_analysis_sequential (scrutinee : Expr) (branches : List Expr)
    (u : UsageMap) :
    sharing_analysis (Expr.Case scrutinee branches) u
      = sharing_list (scrutinee :: branches) u := by
  funext s
  rw [sharing_eq_applyN, sharing_list_eq_applyN]
  simp [countUses, countList]

/-- C3: if the scrutinee of a case reads `x` and some branch body also
reads `x`, the final usage map classifies `x` as `Shared`, from any
starting map. -/
theorem scrutinee_and_branch_read_shared (scrutinee b : Expr)
    (branches : List Expr) (x : Symbol) (u : UsageMap)
    (h1 : 1 ≤ countUses scrutinee x) (hb : b ∈ branches)
    (h2 : 1 ≤ countUses b x) :
    sharing_analysis (Expr.Case scrutinee branches) u x
      = some ReferenceCount.Shared := by
  rw [sharing_eq_applyN]
  apply applyN_two_le
  have h3 := countUses_le_countList b branches x hb
  simp only [countUses]
  omega

/-- C3 — witness at `case x of [ -> x]` from the empty map. -/
theorem scrutinee_and_branch_read_shared_witness :
    1 ≤ countUses (Expr.Var 0) 0
    ∧ sharing_analysis (Expr.Case (Expr.Var 0) [Expr.Var 0]) emptyUsage 0
        = some ReferenceCount.Shared :=
  ⟨by decide,
   scrutinee_and_branch_read_shared (Expr.Var 0) (Expr.Var 0) [Expr.Var 0] 0
     emptyUsage (by decide) (List.mem_cons_self _ _) (by decide)⟩

/-- C4: `register` inserts `Unique` for an absent symbol and replaces
any present entry by `Shared` (via `add`); hence `f(x, x)` and a
definitions block reading `x` twice both classify `x` as `Shared`. -/
theorem register_add_forces_shared :
    (∀ (s : Symbol) (u : UsageMap),
        u s = none → register s u s = some ReferenceCount.Unique)
    ∧ (∀ (s : Symbol) (u : UsageMap) (c : ReferenceCount),
        u s = some c → register s u s = some ReferenceCount.Shared)
    ∧ (∀ (f x : Symbol) (u : UsageMap),
        sharing_analysis (Expr.CallByName f [Expr.Var x, Expr.Var x]) u x
          = some ReferenceCount.Shared)
    ∧ (∀ (x : Symbol) (body : Expr) (u : UsageMap),
        sharing_analysis (Expr.Defs [Expr.Var x, Expr.Var x] body) u x
          = some ReferenceCount.Shared) := by
  refine ⟨?_, ?_, ?_, ?_⟩
  · intro s u h
    rw [register_apply, if_pos rfl, h]
    rfl
  · intro s u c h
    rw [register_apply, if_pos rfl, h]
    rfl
  · intro f x u
    rw [sharing_eq_applyN]
    apply applyN_two_le
    simp only [countUses, countList]
    by_cases hf : f = x <;> simp [hf]
  · intro x body u
    rw [sharing_eq_applyN]
    apply applyN_two_le
    simp [countUses, countList]

/-- C4 — witness: first and second `register` of the same symbol, and
the two sequential double-read shapes, all evaluated concretely. -/
theorem register_add_forces_shared_witness :
    register 0 emptyUsage 0 = some ReferenceCount.Unique
    ∧ register 0 (register 0 emptyUsage) 0 = some ReferenceCount.Shared
    ∧ sharing_analysis (Expr.CallByName 1 [Expr.Var 0, Expr.Var 0]) emptyUsage 0
        = some ReferenceCount.Shared
    ∧ sharing_analysis (Expr.Defs [Expr.Var 0, Expr.Var 0] Expr.EmptyRecord) emptyUsage 0
        = some ReferenceCount.Shared :=
  ⟨register_add_forces_shared.1 0 emptyUsage rfl,
   register_add_forces_shared.2.1 0 (register 0 emptyUsage) ReferenceCount.Unique rfl,
   register_add_forces_shared.2.2.1 1 0 emptyUsage,
   register_add_forces_shared.2.2.2 0 Expr.EmptyRecord emptyUsage⟩

/-- C5: if `f` occurs as the callee of a statically-resolved call and is
referenced at least twice in total (as callee, variable or argument),
the final map classifies `f` as `Shared`, from any starting map. -/
theorem callee_double_reference_shared (e : Expr) (f : Symbol) (u : UsageMap)
    (_hcallee : hasCallee e f = true) (h2 : 2 ≤ countUses e f) :
    sharing_analysis e u f = some ReferenceCount.Shared := by
  rw [sharing_eq_applyN]
  exact applyN_two_le _ _ h2

/-- C5 — witness at `f(f)`: `f` called once and passed once as an
argument. -/
theorem callee_double_reference_shared_witness :
    hasCallee (Expr.CallByName 0 [Expr.Var 0]) 0 = true
    ∧ 2 ≤ countUses (Expr.CallByName 0 [Expr.Var 0]) 0
    ∧ sharing_analysis (Expr.CallByName 0 [Expr.Var 0]) emptyUsage 0
        = some ReferenceCount.Shared :=
  ⟨rfl, by decide,
   callee_double_reference_shared (Expr.CallByName 0 [Expr.Var 0]) 0 emptyUsage
     rfl (by decide)⟩

/-- C6: a symbol referenced exactly once in total, analyzed from the
empty map, is classified `Unique`. -/
theorem single_reference_unique (e : Expr) (x : Symbol)
    (h : countUses e x = 1) :
    sharing_analysis e emptyUsage x = some ReferenceCount.Unique := by
  rw [sharing_eq_applyN, h]
  rfl

/-- C6 — witness at a single variable reference. -/
theorem single_reference_unique_witness :
    countUses (Expr.Var 0) 0 = 1
    ∧ sharing_analysis (Expr.Var 0) emptyUsage 0 = some ReferenceCount.Unique :=
  ⟨by decide, single_reference_unique (Expr.Var 0) 0 (by decide)⟩

/-- C7: a symbol never referenced in the analyzed expression has no
entry in the final map when analysis starts from the empty map; more
generally the analysis leaves the entry of an unreferenced symbol
exactly as it was in the starting map. -/
theorem unreferenced_symbol_absent :
    (∀ (e : Expr) (x : Symbol),
        countUses e x = 0 → sharing_analysis e emptyUsage x = none)
    ∧ (∀ (e : Expr) (u : UsageMap) (x : Symbol),
        countUses e x = 0 → sharing_analysis e u x = u x) := by
  constructor
  · intro e x h
    rw [sharing_eq_applyN, h]
    rfl
  · intro e u x h
    rw [sharing_eq_applyN, h]
    rfl

/-- C7 — witness: an unmentioned symbol is absent after analysis, and an
existing entry of an unmentioned symbol is untouched. -/
theorem unreferenced_symbol_absent_witness :
    countUses Expr.EmptyRecord 0 = 0
    ∧ sharing_analysis Expr.EmptyRecord emptyUsage 0 = none
    ∧ sharing_analysis (Expr.Var 1) (register 0 emptyUsage) 0
        = register 0 emptyUsage 0 :=
  ⟨rfl, unreferenced_symbol_absent.1 Expr.EmptyRecord 0 rfl,
   unreferenced_symbol_absent.2 (Expr.Var 1) (register 0 emptyUsage) 0 (by decide)⟩

/-- C8: the classifier is a total terminating function (witnessed by
`sharing_analysis` being accepted as a total Lean function over the full
expression vocabulary), and every literal shape as well as the
runtime-error placeholder leaves the usage map exactly unchanged. -/
theorem literals_no_usages (u : UsageMap) :
    sharing_analysis Expr.Int u = u
    ∧ sharing_analysis Expr.Float u = u
    ∧ sharing_analysis Expr.Str u = u
    ∧ sharing_analysis Expr.BlockStr u = u
    ∧ sharing_analysis Expr.EmptyRecord u = u
    ∧ sharing_analysis Expr.RuntimeError u = u := by
  refine ⟨?_, ?_, ?_, ?_, ?_, ?_⟩ <;> rw [sharing_analysis]

/-- C9: the result of the `Case` merge loop does not depend on the
iteration order of the branch-local map: running the loop over any two
permutations of the map's entries gives identical maps, and running it
over any enumeration of the entries agrees with the pointwise merge
`mergeInto` used by `sharing_analysis`; re-analysis is deterministic
since the result is a pure function of the entries alone. -/
theorem case_merge_order_irrelevant :
    (∀ (l₁ l₂ : List (Symbol × ReferenceCount)) (u : UsageMap),
        List.Perm l₁ l₂ → (keysOf l₁).Nodup → mergeList l₁ u = mergeList l₂ u)
    ∧ (∀ (l : List (Symbol × ReferenceCount)) (u localMap : UsageMap),
        (keysOf l).Nodup → (∀ s, lookupList l s = localMap s) →
          mergeList l u = mergeInto u localMap) := by
  constructor
  · intro l₁ l₂ u hp hnd
    funext s
    rw [mergeList_apply l₁ hnd u s,
        mergeList_apply l₂ ((hp.map Prod.fst).nodup_iff.mp hnd) u s,
        lookupList_perm hp hnd s]
  · intro l u localMap hnd hl
    funext s
    rw [mergeList_apply l hnd u s, hl s]
    rfl

/-- C9 — witness: a two-entry branch-local map merged in both iteration
orders, and against the pointwise merge. -/
theorem case_merge_order_irrelevant_witness :
    mergeList [(0, ReferenceCount.Unique), (1, ReferenceCount.Shared)] emptyUsage
      = mergeList [(1, ReferenceCount.Shared), (0, ReferenceCount.Unique)] emptyUsage
    ∧ mergeList [(0, ReferenceCount.Unique), (1, ReferenceCount.Shared)] emptyUsage
      = mergeInto emptyUsage
          (lookupList [(0, ReferenceCount.Unique), (1, ReferenceCount.Shared)]) :=
  ⟨case_merge_order_irrelevant.1
     [(0, ReferenceCount.Unique), (1, ReferenceCount.Shared)]
     [(1, ReferenceCount.Shared), (0, ReferenceCount.Unique)] emptyUsage
     (List.Perm.swap (1, ReferenceCount.Shared) (0, ReferenceCount.Unique) [])
     (by decide),
   case_merge_order_irrelevant.2
     [(0, ReferenceCount.Unique), (1, ReferenceCount.Shared)] emptyUsage
     (lookupList [(0, ReferenceCount.Unique), (1, ReferenceCount.Shared)])
     (by decide) (fun _ => rfl)⟩

/-- C10: the analysis is monotone in the lattice
absent < Unique < Shared: no traversal step, `register` call or `Or`
merge ever removes an entry or downgrades a `Shared` entry. -/
theorem analysis_monotone :
    (∀ (e : Expr) (u : UsageMap) (x : Symbol) (c : ReferenceCount),
        u x = some c → ∃ d, sharing_analysis e u x = some d)
    ∧ (∀ (e : Expr) (u : UsageMap) (x : Symbol),
        u x = some ReferenceCount.Shared →
          sharing_analysis e u x = some ReferenceCount.Shared)
    ∧ (∀ (s : Symbol) (u : UsageMap) (t : Symbol) (c : ReferenceCount),
        u t = some c → ∃ d, register s u t = some d)
    ∧ (∀ (s : Symbol) (u : UsageMap) (t : Symbol),
        u t = some ReferenceCount.Shared →
          register s u t = some ReferenceCount.Shared)
    ∧ (∀ (u localMap : UsageMap) (x : Symbol) (c : ReferenceCount),
        u x = some c → ∃ d, mergeInto u localMap x = some d)
    ∧ (∀ (u localMap : UsageMap) (x : Symbol),
        u x = some ReferenceCount.Shared →
          mergeInto u localMap x = some ReferenceCount.Shared) := by
  refine ⟨?_, ?_, ?_, ?_, ?_, ?_⟩
  · intro e u x c h
    rw [sharing_eq_applyN, h]
    exact applyN_isSome _ c
  · intro e u x h
    rw [sharing_eq_applyN, h]
    exact applyN_shared _
  · intro s u t c h
    rw [register_apply]
    by_cases ht : t = s
    · subst ht
      rw [if_pos rfl, h]
      exact ⟨_, rfl⟩
    · rw [if_neg ht]
      exact ⟨c, h⟩
  · intro s u t h
    rw [register_apply]
    by_cases ht : t = s
    · subst ht
      rw [if_pos rfl, h]
      rfl
    · rw [if_neg ht]
      exact h
  · intro u localMap x c h
    show ∃ d, merge1 (u x) (localMap x) = some d
    rw [h]
    cases localMap x with
    | none => exact ⟨c, rfl⟩
    | some v => exact ⟨ReferenceCount.or c v, rfl⟩
  · intro u localMap x h
    show merge1 (u x) (localMap x) = some ReferenceCount.Shared
    rw [h]
    cases localMap x with
    | none => rfl
    | some v => simp [merge1, or_shared_left]

/-- C10 — witness: each monotonicity fact applied at a concrete map with
a `Unique` and a `Shared` entry. -/
theorem analysis_monotone_witness :
    (∃ d, sharing_analysis (Expr.Var 1) (register 0 emptyUsage) 0 = some d)
    ∧ sharing_analysis (Expr.Var 1) (register 0 (register 0 emptyUsage)) 0
        = some ReferenceCount.Shared
    ∧ (∃ d, register 1 (register 0 emptyUsage) 0 = some d)
    ∧ register 1 (register 0 (register 0 emptyUsage)) 0 = some ReferenceCount.Shared
    ∧ (∃ d, mergeInto (register 0 emptyUsage) emptyUsage 0 = some d)
    ∧ mergeInto (register 0 (register 0 emptyUsage)) emptyUsage 0
        = some ReferenceCount.Shared :=
  ⟨analysis_monotone.1 (Expr.Var 1) (register 0 emptyUsage) 0 ReferenceCount.Unique rfl,
   analysis_monotone.2.1 (Expr.Var 1) (register 0 (register 0 emptyUsage)) 0 rfl,
   analysis_monotone.2.2.1 1 (register 0 emptyUsage) 0 ReferenceCount.Unique rfl,
   analysis_monotone.2.2.2.1 1 (register 0 (register 0 emptyUsage)) 0 rfl,
   analysis_monotone.2.2.2.2.1 (register 0 emptyUsage) emptyUsage 0
     ReferenceCount.Unique rfl,
   analysis_monotone.2.2.2.2.2 (register 0 (register 0 emptyUsage)) emptyUsage 0 rfl⟩

end Roc
